import Mathlib

/-!
Verification development for the india_etf repository: a shallow embedding of
its CSV-loading, quarterly-resampling, alignment and correlation pipeline
(`india_pearson.py` and `streamlit_app.py`), together with proofs of the
specification's claims about it.

Conventions of the embedding:
* numeric data values are rationals (`ℚ`); correlation coefficients live in
  `ℝ` because the Pearson formula divides by square roots;
* a missing / not-a-number value (pandas `NaN`) is `Option.none`;
* a calendar quarter is identified by its absolute index `4 * year + (month - 1) / 3`
  (both scripts resample ETF and GDP series with the same quarter-end
  convention, so joining on the quarter-end date is joining on this index);
* `pd.read_csv` string parsing of dates and numbers is abstracted by parser
  parameters `String → Option DateT` / `String → Option ℚ`.
-/

/-- A calendar date as carried by the `Date` column after `pd.to_datetime`. -/
structure DateT where
  year : ℤ
  month : ℤ
  day : ℤ
deriving DecidableEq, Repr

/-- A cleaned source row: one observation `(timestamp, value)`. -/
structure RawObs where
  date : DateT
  value : ℚ
deriving DecidableEq, Repr

/-- Absolute index of the calendar quarter containing a date
(`resample('Q')` groups by this). -/
def qIdx (d : DateT) : ℤ := 4 * d.year + (d.month - 1) / 3

/-- Errors of the loading stage (`SchemaError` when a named column is missing
after trimming; empty input file). -/
inductive LoadError where
  | emptyData
  | schema
deriving DecidableEq, Repr

/-- Error of the alignment stage: fewer overlapping quarters than the policy
minimum (`if len(merged) < 8: ... continue`). -/
inductive AlignError where
  | insufficientOverlap
deriving DecidableEq, Repr

/-- Model of `pd.read_csv(path, skiprows=[1])`: the first physical line is the header,
physical line 1 (the line right after the header) is skipped, the remaining
lines are the data rows. -/
def readCsvSkipRow1 (file : List (List String)) : Option (List String × List (List String)) :=
  match file with
  | [] => none
  | hdr :: rows => some (hdr, rows.tail)

/-- Python `str.strip()` as applied to the header names
(`df.columns.str.strip()`): remove leading and trailing whitespace. -/
def trimWs (s : String) : String :=
  ⟨((s.data.dropWhile Char.isWhitespace).reverse.dropWhile Char.isWhitespace).reverse⟩

/-- The loader `load_etf_csv`: read with `skiprows=[1]`, strip the header names, require
`Date` and `Price` columns, coerce both columns and drop rows where either
coercion fails (`dropna(subset=['Date','Price'])`). -/
def load_etf_csv (parseDate : String → Option DateT) (parseNum : String → Option ℚ)
    (file : List (List String)) : Except LoadError (List RawObs) :=
  match readCsvSkipRow1 file with
  | none => .error .emptyData
  | some (hdr, data) =>
    let cols := hdr.map trimWs
    if "Date" ∈ cols ∧ "Price" ∈ cols then
      let iD := cols.indexOf "Date"
      let iP := cols.indexOf "Price"
      .ok (data.filterMap (fun r =>
        match parseDate (r.getD iD ""), parseNum (r.getD iP "") with
        | some d, some v => some ⟨d, v⟩
        | _, _ => none))
    else .error .schema

/-- Minimum of a list of quarter indices (`df.index.min()`). -/
def qmin : List ℤ → Option ℤ
  | [] => none
  | q :: t =>
    some (match qmin t with
          | none => q
          | some m => min q m)

/-- Maximum of a list of quarter indices (`df.index.max()`). -/
def qmax : List ℤ → Option ℤ
  | [] => none
  | q :: t =>
    some (match qmax t with
          | none => q
          | some m => max q m)

/-- The value of one resampling bin: the arithmetic mean of the observations
falling in quarter `q`, or `none` (NaN) for an empty bin. -/
def binVal (obs : List RawObs) (q : ℤ) : Option ℚ :=
  let vs := (obs.filter (fun o => decide (qIdx o.date = q))).map (·.value)
  if vs.isEmpty then none else some (vs.sum / (vs.length : ℚ))

/-- Model of `df.set_index('Date').resample('Q').mean()`: one row for every calendar
quarter from the first to the last observed quarter (a regular quarterly
grid), each carrying the bin's mean value. -/
def resampleQ (obs : List RawObs) : List (ℤ × Option ℚ) :=
  match qmin (obs.map (fun o => qIdx o.date)), qmax (obs.map (fun o => qIdx o.date)) with
  | some lo, some hi =>
    (List.range (hi - lo + 1).toNat).map (fun (k : ℕ) =>
      (lo + (k : ℤ), binVal obs (lo + (k : ℤ))))
  | _, _ => []

/-- Model of `pd.merge(a, b, how='inner')` on the quarter key: for each left row, all
right rows with the same key, in left-then-right order. -/
def innerJoin {α β : Type} (a : List (ℤ × α)) (b : List (ℤ × β)) : List (ℤ × α × β) :=
  a.flatMap (fun ra => (b.filter (fun rb => decide (rb.1 = ra.1))).map (fun rb => (ra.1, ra.2, rb.2)))

/-- Model of `merged.dropna()`: keep only records where both columns are present. -/
def dropna (l : List (ℤ × Option ℚ × Option ℚ)) : List (ℤ × ℚ × ℚ) :=
  l.filterMap (fun r =>
    match r with
    | (q, some x, some y) => some (q, x, y)
    | _ => none)

/-- The alignment stage of `india_pearson.py` (lines 44-49): inner join of the
two quarterly series, drop incomplete records, and fail when fewer than
`minOverlap` records remain. -/
def align (a b : List (ℤ × Option ℚ)) (minOverlap : ℕ) :
    Except AlignError (List (ℤ × ℚ × ℚ)) :=
  let m := dropna (innerJoin a b)
  if m.length < minOverlap then .error .insufficientOverlap else .ok m

/-- Model of `s / s.iloc[0]`: normalization of a series to its first value. -/
def normalizeS (l : List ℚ) : List ℚ := l.map (fun v => v / l.headI)

/-- Model of `s.pct_change()`: first entry NaN, then period-over-period relative change. -/
def pctChange : List ℚ → List (Option ℚ)
  | [] => []
  | x :: t => none :: List.zipWith (fun prev cur => some (cur / prev - 1)) (x :: t) t

/-- Running product with pandas `skipna` semantics: a NaN entry stays NaN in
the output but does not poison the accumulated product. -/
def cumprodAux : ℚ → List (Option ℚ) → List (Option ℚ)
  | _, [] => []
  | acc, none :: t => none :: cumprodAux acc t
  | acc, some v :: t => some (acc * v) :: cumprodAux (acc * v) t

/-- Model of `s.cumprod()` (default `skipna=True`). -/
def cumprodSkip (l : List (Option ℚ)) : List (Option ℚ) := cumprodAux 1 l

/-- Model of `s.pct_change().add(1).cumprod()`: the cumulative-growth series. -/
def cumGrowth (l : List ℚ) : List (Option ℚ) :=
  cumprodSkip ((pctChange l).map (Option.map (· + 1)))

/-- The quantity `n·Σx² - (Σx)²`: the scaled variance sum of a column.  It is zero exactly
when the column is degenerate (fewer than two entries, or constant), the case
where pandas `corr` yields NaN. -/
def Sxx (l : List ℚ) : ℚ :=
  (l.length : ℚ) * (l.map (fun x => x ^ 2)).sum - (l.sum) ^ 2

/-- The quantity `n·Σxy - Σx·Σy`: the scaled covariance sum of a list of pairs. -/
def Sxy (l : List (ℚ × ℚ)) : ℚ :=
  (l.length : ℚ) * (l.map (fun p => p.1 * p.2)).sum
    - (l.map Prod.fst).sum * (l.map Prod.snd).sum

/-- Model of `Series.corr` (Pearson, pandas): NaN (`none`) when either column is
degenerate — in particular for fewer than two observations — and otherwise the
standard coefficient `(nΣxy - ΣxΣy) / (√(nΣx²-(Σx)²)·√(nΣy²-(Σy)²))`. -/
noncomputable def corrPairs (l : List (ℚ × ℚ)) : Option ℝ :=
  if Sxx (l.map Prod.fst) = 0 ∨ Sxx (l.map Prod.snd) = 0 then none
  else some ((Sxy l : ℝ) /
    (Real.sqrt (Sxx (l.map Prod.fst)) * Real.sqrt (Sxx (l.map Prod.snd))))

/-- Model of `Series.corr` on columns that may contain NaN: pandas first restricts to
the pairwise-complete observations. -/
noncomputable def seriesCorr (pairs : List (Option ℚ × Option ℚ)) : Option ℝ :=
  corrPairs (pairs.filterMap (fun p =>
    match p with
    | (some x, some y) => some (x, y)
    | _ => none))

/-- Model of `Series.rank()` with the default average method: the rank of an entry is
(number of strictly smaller entries) + (number of equal entries + 1) / 2. -/
def rankAvg (l : List ℚ) : List ℚ :=
  l.map (fun x =>
    ((l.countP (fun y => decide (y < x)) : ℚ)) + ((l.count x : ℚ) + 1) / 2)

/-- Spearman correlation of a pairwise-complete pair list: Pearson correlation
of the two independently rank-transformed columns
(`Series.corr(other, method='spearman')`). -/
noncomputable def spearmanPairs (l : List (ℚ × ℚ)) : Option ℝ :=
  corrPairs ((rankAvg (l.map Prod.fst)).zip (rankAvg (l.map Prod.snd)))

/-- Model of `method='spearman'` on columns that may contain NaN. -/
noncomputable def seriesSpearman (pairs : List (Option ℚ × Option ℚ)) : Option ℝ :=
  spearmanPairs (pairs.filterMap (fun p =>
    match p with
    | (some x, some y) => some (x, y)
    | _ => none))

/-- The length-`w` winSlice of a series ending at position `i`
(the rolling window `s[i-w+1..i]`). -/
def winSlice {α : Type} (l : List α) (w i : ℕ) : List α :=
  (l.take (i + 1)).drop (i + 1 - w)

/-- Model of `merged['Price'].rolling(window=w).corr(merged['GDP_USD'])` over the
aligned column pairs `S`: NaN (`none`) while the window is incomplete
(`i < w-1`, pandas default `min_periods = w`), else the Pearson correlation of
the window ending at `i`; one output entry per input record. -/
noncomputable def rollingPearson (S : List (ℚ × ℚ)) (w : ℕ) : List (Option ℝ) :=
  (List.range S.length).map (fun i =>
    if i + 1 < w then none else corrPairs (winSlice S w i))

/-- Model of `merged['Price'].rolling(window=w).apply(spearman_corr)`: the applied
function receives the Price window `x`, ranks it, ranks the GDP values at the
window's index labels (`merged.loc[x.index, 'GDP_USD'].rank()`), and returns
the Pearson correlation of the two rank series. -/
noncomputable def rollingSpearman (S : List (ℚ × ℚ)) (w : ℕ) : List (Option ℝ) :=
  (List.range S.length).map (fun i =>
    if i + 1 < w then none
    else corrPairs
      ((rankAvg (winSlice (S.map Prod.fst) w i)).zip
        (rankAvg (winSlice (S.map Prod.snd) w i))))

/-- The `w`-record window of `S` ending at index `i`, extracted record by
record: records `i-w+1` through `i` (the specification's `S[i-w+1..i]`). -/
def windowAt (S : List (ℚ × ℚ)) (w i : ℕ) : List (ℚ × ℚ) :=
  (List.range w).map (fun k => S.getD (i + 1 - w + k) (0, 0))

/-- Model of `round(x, 4)` on the reported coefficient. -/
noncomputable def round4 (x : ℝ) : ℝ := (round (x * 10000) : ℝ) / 10000

/-- One row of the `results` collection of `india_pearson.py` (lines 53-59). -/
structure EtfSummary where
  etf : String
  pearson_r : Option ℝ
  quarters : ℕ
  startQ : Option ℤ
  endQ : Option ℤ

/-- The per-ETF body of the `india_pearson.py` loop: load the CSV, resample to
quarters, align with the (already resampled) GDP series requiring at least 8
overlapping quarters, and on success produce the summary row; any failure
skips the ETF (`continue`). -/
noncomputable def processEtf (parseDate : String → Option DateT) (parseNum : String → Option ℚ)
    (gdp : List (ℤ × Option ℚ)) (nf : String × List (List String)) : Option EtfSummary :=
  match load_etf_csv parseDate parseNum nf.2 with
  | .error _ => none
  | .ok obs =>
    match align (resampleQ obs) gdp 8 with
    | .error _ => none
    | .ok m =>
      some { etf := nf.1
             pearson_r := (corrPairs (m.map (fun r => (r.2.1, r.2.2)))).map round4
             quarters := m.length
             startQ := qmin (m.map (·.1))
             endQ := qmax (m.map (·.1)) }

/-- The full `india_pearson.py` loop: the summary collection accumulates the
rows of the ETFs that were not skipped. -/
noncomputable def resultsIndia (parseDate : String → Option DateT) (parseNum : String → Option ℚ)
    (gdp : List (ℤ × Option ℚ)) (etfs : List (String × List (List String))) : List EtfSummary :=
  etfs.filterMap (processEtf parseDate parseNum gdp)

/-- One row of the dashboard's correlation table (`streamlit_app.py` line 60). -/
structure DashEntry where
  etf : String
  pearson_r : Option ℝ
  spearman_r : Option ℝ

/-- The per-ETF body of the `streamlit_app.py` loop: load (schema failures are
caught and the ETF skipped), inner-join with GDP on the date, skip only when
the join is empty, and otherwise record both correlations — there is no
minimum-count guard and no `dropna` after the merge. -/
noncomputable def processEtfDash (parseDate : String → Option DateT) (parseNum : String → Option ℚ)
    (gdp : List (ℤ × Option ℚ)) (nf : String × List (List String)) : Option DashEntry :=
  match load_etf_csv parseDate parseNum nf.2 with
  | .error _ => none
  | .ok obs =>
    let m := innerJoin (resampleQ obs) gdp
    if m.isEmpty then none
    else some { etf := nf.1
                pearson_r := seriesCorr (m.map (·.2))
                spearman_r := seriesSpearman (m.map (·.2)) }

/-! ### Window lemmas -/

theorem getD_map_range {α : Type} (f : ℕ → α) (n i : ℕ) (d : α) (h : i < n) :
    ((List.range n).map f).getD i d = f i := by
  have hb : i < ((List.range n).map f).length := by simpa using h
  rw [List.getD_eq_getElem _ _ hb]
  simp

theorem winSlice_eq_map_getD {α : Type} (l : List α) (d : α) (w i : ℕ)
    (hw : w ≤ i + 1) (hi : i < l.length) :
    winSlice l w i = (List.range w).map (fun k => l.getD (i + 1 - w + k) d) := by
  apply List.ext_getElem
  · simp only [winSlice, List.length_drop, List.length_take, List.length_map,
      List.length_range]
    omega
  · intro j h1 h2
    have hj : j < w := by simpa using h2
    have hb : i + 1 - w + j < l.length := by omega
    simp only [winSlice, List.getElem_drop, List.getElem_take, List.getElem_map,
      List.getElem_range]
    rw [List.getD_eq_getElem _ _ hb]

theorem windowAt_eq_winSlice (S : List (ℚ × ℚ)) (w i : ℕ)
    (hw : w ≤ i + 1) (hi : i < S.length) :
    windowAt S w i = winSlice S w i := by
  rw [windowAt, winSlice_eq_map_getD S (0, 0) w i hw hi]

theorem winSlice_map {α β : Type} (f : α → β) (l : List α) (w i : ℕ) :
    winSlice (l.map f) w i = (winSlice l w i).map f := by
  simp [winSlice, List.map_take, List.map_drop]

theorem rollingPearson_getD (S : List (ℚ × ℚ)) (w i : ℕ) (hi : i < S.length) :
    (rollingPearson S w).getD i none =
      if i + 1 < w then none else corrPairs (winSlice S w i) := by
  unfold rollingPearson
  exact getD_map_range _ _ _ _ hi

theorem rollingSpearman_getD (S : List (ℚ × ℚ)) (w i : ℕ) (hi : i < S.length) :
    (rollingSpearman S w).getD i none =
      if i + 1 < w then none
      else corrPairs
        ((rankAvg (winSlice (S.map Prod.fst) w i)).zip
          (rankAvg (winSlice (S.map Prod.snd) w i))) := by
  unfold rollingSpearman
  exact getD_map_range _ _ _ _ hi

/-- C2: for every aligned record sequence `S` and window `w`, at each index
`i ≥ w-1` (with `i` in range) the rolling Pearson output equals the
whole-series Pearson correlation `corrPairs` applied to the sub-sequence of
records from index `i-w+1` through `i`: the rolling computation is the
whole-series computation restricted to the window. -/
theorem rolling_pearson_restriction (S : List (ℚ × ℚ)) (w i : ℕ)
    (hw : w ≤ i + 1) (hi : i < S.length) :
    (rollingPearson S w).getD i none = corrPairs (windowAt S w i) := by
  rw [rollingPearson_getD S w i hi, if_neg (by omega),
    windowAt_eq_winSlice S w i hw hi]

theorem rolling_pearson_restriction_witness :
    2 ≤ 1 + 1 ∧ 1 < [((1 : ℚ), (2 : ℚ)), (2, 3), (3, 5)].length ∧
    (rollingPearson [((1 : ℚ), (2 : ℚ)), (2, 3), (3, 5)] 2).getD 1 none =
      corrPairs (windowAt [((1 : ℚ), (2 : ℚ)), (2, 3), (3, 5)] 2 1) :=
  ⟨by decide, by decide,
    rolling_pearson_restriction [((1 : ℚ), (2 : ℚ)), (2, 3), (3, 5)] 2 1
      (by decide) (by decide)⟩

/-- C1: `rollingSpearman` uses the same windowing as `rollingPearson` (output
length `n`, null for `i < w-1`), and at each index `i ≥ w-1` its value is the
Pearson correlation of the two rank sequences obtained by independently
ranking (average ranks, local to the window) the `etf_price` and `gdp_usd`
columns of the `w`-record window ending at `i`. -/
theorem rolling_spearman_spec (S : List (ℚ × ℚ)) (w : ℕ) :
    (rollingSpearman S w).length = S.length
    ∧ (rollingPearson S w).length = S.length
    ∧ (∀ i, i < S.length → i + 1 < w →
        (rollingSpearman S w).getD i none = none
          ∧ (rollingPearson S w).getD i none = none)
    ∧ (∀ i, w ≤ i + 1 → i < S.length →
        (rollingSpearman S w).getD i none =
          corrPairs ((rankAvg ((windowAt S w i).map Prod.fst)).zip
            (rankAvg ((windowAt S w i).map Prod.snd)))) := by
  refine ⟨by simp [rollingSpearman], by simp [rollingPearson], ?_, ?_⟩
  · intro i hi hw
    rw [rollingSpearman_getD S w i hi, rollingPearson_getD S w i hi,
      if_pos hw, if_pos hw]
    exact ⟨rfl, rfl⟩
  · intro i hw hi
    rw [rollingSpearman_getD S w i hi, if_neg (by omega),
      windowAt_eq_winSlice S w i hw hi, ← winSlice_map Prod.fst S w i,
      ← winSlice_map Prod.snd S w i]

theorem rolling_spearman_spec_witness :
    (rollingSpearman [((1 : ℚ), (2 : ℚ)), (2, 3), (3, 5)] 2).getD 0 none = none
    ∧ (rollingSpearman [((1 : ℚ), (2 : ℚ)), (2, 3), (3, 5)] 2).getD 2 none =
        corrPairs
          ((rankAvg ((windowAt [((1 : ℚ), (2 : ℚ)), (2, 3), (3, 5)] 2 2).map Prod.fst)).zip
            (rankAvg ((windowAt [((1 : ℚ), (2 : ℚ)), (2, 3), (3, 5)] 2 2).map Prod.snd))) :=
  ⟨((rolling_spearman_spec [((1 : ℚ), (2 : ℚ)), (2, 3), (3, 5)] 2).2.2.1 0
      (by decide) (by decide)).1,
    (rolling_spearman_spec [((1 : ℚ), (2 : ℚ)), (2, 3), (3, 5)] 2).2.2.2 2
      (by decide) (by decide)⟩

/-- C3 (amended): for every aligned record sequence `S` of length `n` and
window `w`, `rollingPearson` has output length exactly `n`, emits null at
every index `i < w-1`, and at every index `i ≥ w-1` emits the Pearson
correlation of the window ending at `i`; that value is numeric whenever both
window columns are non-degenerate (nonzero variance sums), and null for a
degenerate window. -/
theorem rolling_pearson_windowing (S : List (ℚ × ℚ)) (w : ℕ) :
    (rollingPearson S w).length = S.length
    ∧ (∀ i, i < S.length → i + 1 < w → (rollingPearson S w).getD i none = none)
    ∧ (∀ i, w ≤ i + 1 → i < S.length →
        (rollingPearson S w).getD i none = corrPairs (winSlice S w i)
          ∧ (Sxx ((winSlice S w i).map Prod.fst) ≠ 0 →
              Sxx ((winSlice S w i).map Prod.snd) ≠ 0 →
              ((rollingPearson S w).getD i none).isSome)) := by
  refine ⟨by simp [rollingPearson], ?_, ?_⟩
  · intro i hi hw
    rw [rollingPearson_getD S w i hi, if_pos hw]
  · intro i hw hi
    rw [rollingPearson_getD S w i hi, if_neg (by omega)]
    refine ⟨rfl, fun h1 h2 => ?_⟩
    rw [corrPairs, if_neg (by tauto)]
    rfl

theorem rolling_pearson_windowing_witness :
    (rollingPearson [((1 : ℚ), (2 : ℚ)), (2, 3), (3, 5)] 2).getD 0 none = none
    ∧ (rollingPearson [((1 : ℚ), (2 : ℚ)), (2, 3), (3, 5)] 2).getD 1 none =
        corrPairs (winSlice [((1 : ℚ), (2 : ℚ)), (2, 3), (3, 5)] 2 1)
    ∧ ((rollingPearson [((1 : ℚ), (2 : ℚ)), (2, 3), (3, 5)] 2).getD 1 none).isSome :=
  ⟨(rolling_pearson_windowing [((1 : ℚ), (2 : ℚ)), (2, 3), (3, 5)] 2).2.1 0
      (by decide) (by decide),
    ((rolling_pearson_windowing [((1 : ℚ), (2 : ℚ)), (2, 3), (3, 5)] 2).2.2 1
      (by decide) (by decide)).1,
    ((rolling_pearson_windowing [((1 : ℚ), (2 : ℚ)), (2, 3), (3, 5)] 2).2.2 1
      (by decide) (by decide)).2 (by norm_num [Sxx, winSlice])
      (by norm_num [Sxx, winSlice])⟩

/-- C3 (counterexample to the claim as stated): a 10-record aligned series
whose first eight ETF prices are constant.  With window 8 the output at index
7 is null (the window's price column has zero variance, pandas yields NaN),
not a numeric correlation value as the claim requires for indices 7–9. -/
theorem rolling_pearson_constant_window_null :
    (rollingPearson
        [((1 : ℚ), (1 : ℚ)), (1, 2), (1, 3), (1, 4), (1, 5), (1, 6), (1, 7),
          (1, 8), (2, 9), (3, 10)] 8).length = 10
    ∧ (rollingPearson
        [((1 : ℚ), (1 : ℚ)), (1, 2), (1, 3), (1, 4), (1, 5), (1, 6), (1, 7),
          (1, 8), (2, 9), (3, 10)] 8).getD 7 none = none := by
  constructor
  · rfl
  · rw [rollingPearson_getD _ 8 7 (by decide), if_neg (by omega), corrPairs,
      if_pos]
    left
    norm_num [Sxx, winSlice]

/-- C10: the ETF CSV reader always skips exactly the physical row at index 1
(the single row immediately after the header), whatever its content, so a file
without a metadata row silently loses its first data row before cleaning. -/
theorem loader_skiprow_exact (parseDate : String → Option DateT)
    (parseNum : String → Option ℚ) (hdr r0 r0' : List String)
    (rest : List (List String)) :
    readCsvSkipRow1 (hdr :: r0 :: rest) = some (hdr, rest)
    ∧ load_etf_csv parseDate parseNum (hdr :: r0 :: rest) =
        load_etf_csv parseDate parseNum (hdr :: r0' :: rest) :=
  ⟨rfl, rfl⟩

/-- Skipping one ETF leaves the rest of the run untouched: the summary
collection of a run containing a skipped ETF is the collection of the
surrounding ETFs. -/
theorem resultsIndia_skip (parseDate : String → Option DateT)
    (parseNum : String → Option ℚ) (gdp : List (ℤ × Option ℚ))
    (pre post : List (String × List (List String)))
    (nf : String × List (List String))
    (h : processEtf parseDate parseNum gdp nf = none) :
    resultsIndia parseDate parseNum gdp (pre ++ nf :: post) =
      resultsIndia parseDate parseNum gdp pre ++
        resultsIndia parseDate parseNum gdp post := by
  simp [resultsIndia, List.filterMap_append, List.filterMap_cons, h]

/-- Test fixture: a date parser recognising five quarterly date strings. -/
def pdT : String → Option DateT := fun s =>
  if s = "d0" then some ⟨0, 1, 1⟩
  else if s = "d1" then some ⟨0, 4, 1⟩
  else if s = "d2" then some ⟨0, 7, 1⟩
  else if s = "d3" then some ⟨0, 10, 1⟩
  else if s = "d4" then some ⟨1, 1, 1⟩
  else none

/-- Test fixture: a numeric parser recognising two price strings. -/
def pnT : String → Option ℚ := fun s =>
  if s = "1" then some 1 else if s = "2" then some 2 else none

/-- Test fixture: a resampled GDP series covering quarters 0 through 9. -/
def gdpT : List (ℤ × Option ℚ) :=
  [(0, some 1), (1, some 1), (2, some 1), (3, some 1), (4, some 1),
    (5, some 1), (6, some 1), (7, some 1), (8, some 1), (9, some 1)]

/-- Test fixture: an ETF CSV whose observations span quarters 0 through 4
(header, metadata row, five data rows). -/
def fileT : List (List String) :=
  [["Date", "Price"], ["meta", "meta"],
    ["d0", "1"], ["d1", "1"], ["d2", "2"], ["d3", "1"], ["d4", "2"]]

/-- Test fixture: the cleaned observations of `fileT`. -/
def obsT : List RawObs :=
  [⟨⟨0, 1, 1⟩, 1⟩, ⟨⟨0, 4, 1⟩, 1⟩, ⟨⟨0, 7, 1⟩, 2⟩, ⟨⟨0, 10, 1⟩, 1⟩,
    ⟨⟨1, 1, 1⟩, 2⟩]

/-- C5: alignment fails with `InsufficientOverlapError` exactly when the inner
join (after dropping incomplete records) has fewer than `min_overlap` records,
and on that failure the per-ETF loop skips the ETF — the run's summary
collection is exactly that of the remaining ETFs. -/
theorem align_min_overlap_policy :
    (∀ (a b : List (ℤ × Option ℚ)) (k : ℕ),
      (∃ e, align a b k = .error e) ↔ (dropna (innerJoin a b)).length < k)
    ∧ (∀ (parseDate : String → Option DateT) (parseNum : String → Option ℚ)
        (gdp : List (ℤ × Option ℚ)) (pre post : List (String × List (List String)))
        (name : String) (file : List (List String)) (obs : List RawObs),
        load_etf_csv parseDate parseNum file = .ok obs →
        (∃ e, align (resampleQ obs) gdp 8 = .error e) →
        resultsIndia parseDate parseNum gdp (pre ++ (name, file) :: post) =
          resultsIndia parseDate parseNum gdp pre ++
            resultsIndia parseDate parseNum gdp post) := by
  constructor
  · intro a b k
    constructor
    · rintro ⟨e, he⟩
      by_contra hlen
      simp [align, hlen] at he
    · intro hlen
      refine ⟨.insufficientOverlap, ?_⟩
      simp [align, hlen]
  · rintro parseDate parseNum gdp pre post name file obs hload ⟨e, halign⟩
    apply resultsIndia_skip
    simp [processEtf, hload, halign]

theorem align_min_overlap_policy_witness :
    (dropna (innerJoin (resampleQ obsT) gdpT)).length < 8
    ∧ align (resampleQ obsT) gdpT 8 = .error .insufficientOverlap
    ∧ resultsIndia pdT pnT gdpT [("SMIN", fileT)] =
        resultsIndia pdT pnT gdpT [] ++ resultsIndia pdT pnT gdpT [] :=
  ⟨by decide, by rfl,
    align_min_overlap_policy.2 pdT pnT gdpT [] [] "SMIN" fileT obsT (by rfl)
      ⟨.insufficientOverlap, by rfl⟩⟩

/-- C6: the loader trims whitespace from the header names and fails with
`SchemaError` exactly when the `Date` or the `Price` column is absent after
trimming; the failure makes the per-ETF loop skip that ETF and continue with
the others. -/
theorem loader_schema_check (parseDate : String → Option DateT)
    (parseNum : String → Option ℚ) (hdr : List String)
    (rows : List (List String)) :
    (load_etf_csv parseDate parseNum (hdr :: rows) = .error .schema ↔
      ("Date" ∉ hdr.map trimWs ∨ "Price" ∉ hdr.map trimWs))
    ∧ (∀ (gdp : List (ℤ × Option ℚ)) (pre post : List (String × List (List String)))
        (name : String) (file : List (List String)),
        (∃ e, load_etf_csv parseDate parseNum file = .error e) →
        resultsIndia parseDate parseNum gdp (pre ++ (name, file) :: post) =
          resultsIndia parseDate parseNum gdp pre ++
            resultsIndia parseDate parseNum gdp post) := by
  constructor
  · constructor
    · intro herr
      by_contra hcon
      push_neg at hcon
      simp [load_etf_csv, readCsvSkipRow1, hcon.1, hcon.2] at herr
    · intro hmiss
      have hno : ¬("Date" ∈ hdr.map trimWs ∧ "Price" ∈ hdr.map trimWs) := by
        tauto
      simp [load_etf_csv, readCsvSkipRow1, hno]
      intro x hx hxd y hy hyp
      exact hno ⟨List.mem_map.mpr ⟨x, hx, hxd⟩, List.mem_map.mpr ⟨y, hy, hyp⟩⟩
  · rintro gdp pre post name file ⟨e, hload⟩
    apply resultsIndia_skip
    simp [processEtf, hload]

theorem loader_schema_check_witness :
    (load_etf_csv pdT pnT ([" Date", "Vol "] :: [["m", "m"], ["d0", "1"]]) =
        .error .schema ↔
      ("Date" ∉ [" Date", "Vol "].map trimWs ∨
        "Price" ∉ [" Date", "Vol "].map trimWs))
    ∧ resultsIndia pdT pnT gdpT
        [("INDA", [[" Date", "Vol "], ["m", "m"], ["d0", "1"]])] =
        resultsIndia pdT pnT gdpT [] ++ resultsIndia pdT pnT gdpT [] :=
  ⟨(loader_schema_check pdT pnT [" Date", "Vol "] [["m", "m"], ["d0", "1"]]).1,
    (loader_schema_check pdT pnT [" Date", "Vol "] [["m", "m"], ["d0", "1"]]).2
      gdpT [] [] "INDA" [[" Date", "Vol "], ["m", "m"], ["d0", "1"]]
      ⟨.schema, by rfl⟩⟩

theorem Sxx_nil : Sxx [] = 0 := by
  simp [Sxx]

theorem Sxx_single (x : ℚ) : Sxx [x] = 0 := by
  simp [Sxx]

/-- With fewer than two observations the variance sum vanishes, so pandas
`corr` evaluates to NaN: the result is null, no exception is raised. -/
theorem corrPairs_short (l : List (ℚ × ℚ)) (h : l.length < 2) :
    corrPairs l = none := by
  match l with
  | [] =>
    rw [corrPairs, if_pos]
    left
    exact Sxx_nil
  | [p] =>
    rw [corrPairs, if_pos]
    left
    exact Sxx_single p.1
  | p :: q :: t => exact absurd h (by simp)

/-- C7 (amended): `pearson` returns the standard Pearson coefficient whenever
both columns are non-degenerate, and for fewer than two records it evaluates
to null (NaN) — it does not raise an error: the engine has no independent
guard, the null simply propagates. -/
theorem pearson_insufficient_data (l : List (ℚ × ℚ)) :
    (l.length < 2 → corrPairs l = none)
    ∧ ((corrPairs l).isSome ↔
        (Sxx (l.map Prod.fst) ≠ 0 ∧ Sxx (l.map Prod.snd) ≠ 0))
    ∧ (Sxx (l.map Prod.fst) ≠ 0 → Sxx (l.map Prod.snd) ≠ 0 →
        corrPairs l = some ((Sxy l : ℝ) /
          (Real.sqrt (Sxx (l.map Prod.fst)) * Real.sqrt (Sxx (l.map Prod.snd))))) := by
  refine ⟨corrPairs_short l, ?_, ?_⟩
  · by_cases h : Sxx (l.map Prod.fst) = 0 ∨ Sxx (l.map Prod.snd) = 0
    · simp [corrPairs, h]
      tauto
    · simp [corrPairs, h]
      tauto
  · intro h1 h2
    rw [corrPairs, if_neg (by tauto)]

theorem pearson_insufficient_data_witness :
    ([((2 : ℚ), (5 : ℚ))].length < 2 ∧ corrPairs [((2 : ℚ), (5 : ℚ))] = none)
    ∧ corrPairs [((1 : ℚ), (1 : ℚ)), (2, 3)] =
        some ((Sxy [((1 : ℚ), (1 : ℚ)), (2, 3)] : ℝ) /
          (Real.sqrt (Sxx ([((1 : ℚ), (1 : ℚ)), (2, 3)].map Prod.fst)) *
            Real.sqrt (Sxx ([((1 : ℚ), (1 : ℚ)), (2, 3)].map Prod.snd)))) :=
  ⟨⟨by decide, (pearson_insufficient_data [((2 : ℚ), (5 : ℚ))]).1 (by decide)⟩,
    (pearson_insufficient_data [((1 : ℚ), (1 : ℚ)), (2, 3)]).2.2
      (by norm_num [Sxx]) (by norm_num [Sxx])⟩

/-- C7 (counterexample to the claim as stated): with a single overlapping
quarter (`n = 1 < 2`) the engine does not fail with an error — `corr`
evaluates to null — and the dashboard pipeline, which only guards against an
empty join, still includes the ETF in the correlation table with null
coefficients instead of excluding it. -/
theorem pearson_no_guard_counterexample :
    corrPairs [((1 : ℚ), (1 : ℚ))] = none
    ∧ (innerJoin (resampleQ [⟨⟨0, 1, 1⟩, 1⟩]) gdpT).length = 1
    ∧ processEtfDash pdT pnT gdpT
        ("INDY", [["Date", "Price"], ["m", "m"], ["d0", "1"]]) =
        some ⟨"INDY", none, none⟩ := by
  refine ⟨corrPairs_short _ (by decide), by decide, ?_⟩
  have hobs : load_etf_csv pdT pnT [["Date", "Price"], ["m", "m"], ["d0", "1"]] =
      .ok [⟨⟨0, 1, 1⟩, 1⟩] := rfl
  obtain ⟨x, hx⟩ :
      ∃ x : ℚ, innerJoin (resampleQ [⟨⟨0, 1, 1⟩, (1 : ℚ)⟩]) gdpT =
        [(0, some x, some 1)] := ⟨_, rfl⟩
  simp only [processEtfDash, hobs, hx]
  have hc : seriesCorr [(some x, some (1 : ℚ))] = none :=
    corrPairs_short _ (by simp)
  have hs : seriesSpearman [(some x, some (1 : ℚ))] = none := by
    apply corrPairs_short
    simp [rankAvg]
  simp [hc, hs]

theorem cumprodAux_growth (t : List ℚ) :
    ∀ (p acc : ℚ), p ≠ 0 → (∀ v ∈ t, v ≠ 0) → ∀ i, i < t.length →
      (cumprodAux acc
        (List.zipWith (fun prev cur => some (cur / prev - 1 + 1)) (p :: t) t)).getD i none
        = some (acc * (t.getD i 0 / p)) := by
  induction t with
  | nil =>
    intro p acc hp hv i hi
    exact absurd hi (by simp)
  | cons c t' ih =>
    intro p acc hp hv i hi
    have hc : c ≠ 0 := hv c (by simp)
    rw [List.zipWith_cons_cons, cumprodAux]
    cases i with
    | zero =>
      rw [List.getD_cons_zero]
      congr 1
      have : c / p - 1 + 1 = c / p := by ring
      rw [this, List.getD_cons_zero]
    | succ j =>
      rw [List.getD_cons_succ, List.getD_cons_succ]
      rw [ih c (acc * (c / p - 1 + 1)) hc (fun v hv' => hv v (by simp [hv'])) j
        (by simpa using hi)]
      congr 1
      field_simp
      ring

/-- C9: over a series with all values non-zero, the cumulative-growth series
(period-over-period percent change, plus 1, running product) has a null entry
at index 0 and coincides with the normalized series (each value divided by the
first value) at every index `i ≥ 1`. -/
theorem cumulative_growth_eq_normalized (l : List ℚ) (hl : ∀ v ∈ l, v ≠ 0) :
    (0 < l.length → (cumGrowth l).getD 0 none = none)
    ∧ (∀ i, 1 ≤ i → i < l.length →
        (cumGrowth l).getD i none = some ((normalizeS l).getD i 0)) := by
  match l with
  | [] =>
    exact ⟨fun h0 => absurd h0 (by simp), fun i h1 h2 => absurd h2 (by simp)⟩
  | x :: t =>
    have hx : x ≠ 0 := hl x (by simp)
    have ht : ∀ v ∈ t, v ≠ 0 := fun v hv => hl v (by simp [hv])
    have hrep : cumGrowth (x :: t) =
        none :: cumprodAux 1
          (List.zipWith (fun prev cur => some (cur / prev - 1 + 1)) (x :: t) t) := by
      simp [cumGrowth, cumprodSkip, pctChange, cumprodAux, List.map_zipWith]
    constructor
    · intro _
      rw [hrep, List.getD_cons_zero]
    · intro i h1 h2
      obtain ⟨j, rfl⟩ : ∃ j, i = j + 1 := ⟨i - 1, by omega⟩
      have hj : j < t.length := by simpa using h2
      rw [hrep, List.getD_cons_succ,
        cumprodAux_growth t x 1 hx ht j hj]
      have hnorm : (normalizeS (x :: t)).getD (j + 1) 0 = t.getD j 0 / x := by
        have hmap : normalizeS (x :: t) =
            (x / x) :: t.map (fun v => v / x) := by
          simp [normalizeS]
        rw [hmap, List.getD_cons_succ,
          List.getD_eq_getElem _ _ (by simpa using hj), List.getElem_map,
          List.getD_eq_getElem _ _ hj]
      rw [hnorm, one_mul]

theorem cumulative_growth_eq_normalized_witness :
    (cumGrowth [(1 : ℚ), 2, 4]).getD 0 none = none
    ∧ (cumGrowth [(1 : ℚ), 2, 4]).getD 2 none =
        some ((normalizeS [(1 : ℚ), 2, 4]).getD 2 0) :=
  ⟨(cumulative_growth_eq_normalized [(1 : ℚ), 2, 4] (by decide)).1 (by decide),
    (cumulative_growth_eq_normalized [(1 : ℚ), 2, 4] (by decide)).2 2
      (by decide) (by decide)⟩

theorem mem_innerJoin {α β : Type} (a : List (ℤ × α)) (b : List (ℤ × β))
    (q : ℤ) (x : α) (y : β) :
    (q, x, y) ∈ innerJoin a b ↔ ((q, x) ∈ a ∧ (q, y) ∈ b) := by
  constructor
  · intro h
    simp only [innerJoin, List.mem_flatMap, List.mem_map, List.mem_filter,
      decide_eq_true_eq] at h
    obtain ⟨ra, hra, rb, ⟨hrb, hkey⟩, heq⟩ := h
    simp only [Prod.mk.injEq] at heq
    obtain ⟨h1, h2, h3⟩ := heq
    constructor
    · have : ra = (q, x) := Prod.ext h1 h2
      exact this ▸ hra
    · have : rb = (q, y) := Prod.ext (by rw [hkey, h1]) h3
      exact this ▸ hrb
  · rintro ⟨hxa, hyb⟩
    simp only [innerJoin, List.mem_flatMap, List.mem_map, List.mem_filter,
      decide_eq_true_eq]
    exact ⟨(q, x), hxa, (q, y), ⟨hyb, rfl⟩, rfl⟩

theorem filter_key_length_le_one {β : Type} (b : List (ℤ × β))
    (hb : (b.map Prod.fst).Nodup) (q : ℤ) :
    (b.filter (fun rb => decide (rb.1 = q))).length ≤ 1 := by
  induction b with
  | nil => simp
  | cons r b' ih =>
    simp only [List.map_cons, List.nodup_cons] at hb
    by_cases hr : r.1 = q
    · have hnone : b'.filter (fun rb => decide (rb.1 = q)) = [] := by
        rw [List.filter_eq_nil_iff]
        intro rb hrb
        simp only [decide_eq_true_eq]
        intro hq
        apply hb.1
        have hrq : r.1 = rb.1 := by rw [hr, hq]
        rw [hrq]
        exact List.mem_map.mpr ⟨rb, hrb, rfl⟩
      simp [List.filter_cons, hr, hnone]
    · simpa [List.filter_cons, hr] using ih hb.2

theorem innerJoin_cons {α β : Type} (ra : ℤ × α) (a : List (ℤ × α))
    (b : List (ℤ × β)) :
    innerJoin (ra :: a) b =
      (b.filter (fun rb => decide (rb.1 = ra.1))).map
        (fun rb => (ra.1, ra.2, rb.2)) ++ innerJoin a b := by
  simp [innerJoin]

theorem innerJoin_length_le_left {α β : Type} (a : List (ℤ × α))
    (b : List (ℤ × β)) (hb : (b.map Prod.fst).Nodup) :
    (innerJoin a b).length ≤ a.length := by
  induction a with
  | nil => simp [innerJoin]
  | cons ra a' ih =>
    rw [innerJoin_cons, List.length_append, List.length_map]
    have := filter_key_length_le_one b hb ra.1
    simp only [List.length_cons]
    omega

theorem val_unique {α : Type} (a : List (ℤ × α)) (ha : (a.map Prod.fst).Nodup)
    (q : ℤ) (x x' : α) (h1 : (q, x) ∈ a) (h2 : (q, x') ∈ a) : x = x' := by
  induction a with
  | nil => simp at h1
  | cons r t ih =>
    simp only [List.map_cons, List.nodup_cons] at ha
    rcases List.mem_cons.mp h1 with he1 | ht1 <;>
      rcases List.mem_cons.mp h2 with he2 | ht2
    · rw [← he2] at he1
      exact congrArg Prod.snd he1
    · exfalso
      apply ha.1
      have hq : q = r.1 := congrArg Prod.fst he1
      exact hq ▸ List.mem_map.mpr ⟨(q, x'), ht2, rfl⟩
    · exfalso
      apply ha.1
      have hq : q = r.1 := congrArg Prod.fst he2
      exact hq ▸ List.mem_map.mpr ⟨(q, x), ht1, rfl⟩
    · exact ih ha.2 ht1 ht2

theorem nodup_of_length_le_one {α : Type} (l : List α) (h : l.length ≤ 1) :
    l.Nodup := by
  match l with
  | [] => exact List.nodup_nil
  | [x] => exact List.nodup_singleton x
  | x :: y :: t => exact absurd h (by simp)

theorem innerJoin_nodup {α β : Type} (a : List (ℤ × α)) (b : List (ℤ × β))
    (ha : (a.map Prod.fst).Nodup) (hb : (b.map Prod.fst).Nodup) :
    (innerJoin a b).Nodup := by
  induction a with
  | nil => simp [innerJoin]
  | cons ra a' ih =>
    simp only [List.map_cons, List.nodup_cons] at ha
    rw [innerJoin_cons]
    refine List.Nodup.append ?_ (ih ha.2) ?_
    · exact nodup_of_length_le_one _
        (by simpa using filter_key_length_le_one b hb ra.1)
    · intro z hz1 hz2
      obtain ⟨rb, hrb, heq⟩ := List.mem_map.mp hz1
      obtain ⟨q, x, y⟩ := z
      have hq : q = ra.1 := (congrArg Prod.fst heq).symm ▸ rfl
      have := ((mem_innerJoin a' b q x y).mp hz2).1
      apply ha.1
      exact hq ▸ List.mem_map.mpr ⟨(q, x), this, rfl⟩

theorem innerJoin_length_le_right {α β : Type} (a : List (ℤ × α))
    (b : List (ℤ × β)) (ha : (a.map Prod.fst).Nodup)
    (hb : (b.map Prod.fst).Nodup) :
    (innerJoin a b).length ≤ b.length := by
  have hmap : ((innerJoin a b).map (fun z => (z.1, z.2.2))).Nodup := by
    refine List.Nodup.map_on ?_ (innerJoin_nodup a b ha hb)
    rintro ⟨q, x, y⟩ hz ⟨q', x', y'⟩ hz' heq
    simp only [Prod.mk.injEq] at heq
    obtain ⟨hq, hy⟩ := heq
    subst hq
    subst hy
    have h1 := (mem_innerJoin a b q x y).mp hz
    have h2 := (mem_innerJoin a b q x' y).mp hz'
    rw [val_unique a ha q x x' h1.1 h2.1]
  have hsub : ((innerJoin a b).map (fun z => (z.1, z.2.2))) ⊆ b := by
    intro z hz
    obtain ⟨⟨q, x, y⟩, hmem, rfl⟩ := List.mem_map.mp hz
    exact ((mem_innerJoin a b q x y).mp hmem).2
  have := (List.subperm_of_subset hmap hsub).length_le
  simpa using this

theorem innerJoin_comm_perm {α β : Type} (a : List (ℤ × α)) (b : List (ℤ × β))
    (ha : (a.map Prod.fst).Nodup) (hb : (b.map Prod.fst).Nodup) :
    (innerJoin a b).Perm
      ((innerJoin b a).map (fun r => (r.1, r.2.2, r.2.1))) := by
  have hinj : Function.Injective
      (fun r : ℤ × β × α => (r.1, r.2.2, r.2.1)) := by
    rintro ⟨q, x, y⟩ ⟨q', x', y'⟩ h
    simp only [Prod.mk.injEq] at h
    obtain ⟨h1, h2, h3⟩ := h
    subst h1; subst h2; subst h3
    rfl
  refine (List.perm_ext_iff_of_nodup (innerJoin_nodup a b ha hb)
    (List.Nodup.map hinj (innerJoin_nodup b a hb ha))).mpr ?_
  intro z
  obtain ⟨q, x, y⟩ := z
  rw [mem_innerJoin]
  constructor
  · rintro ⟨hxa, hyb⟩
    exact List.mem_map.mpr
      ⟨(q, y, x), (mem_innerJoin b a q y x).mpr ⟨hyb, hxa⟩, rfl⟩
  · intro h
    obtain ⟨⟨q', y', x'⟩, hmem, heq⟩ := List.mem_map.mp h
    simp only [Prod.mk.injEq] at heq
    obtain ⟨h1, h2, h3⟩ := heq
    subst h1; subst h2; subst h3
    have := (mem_innerJoin b a q' y' x').mp hmem
    exact ⟨this.2, this.1⟩

theorem dropna_map_swap (l : List (ℤ × Option ℚ × Option ℚ)) :
    dropna (l.map (fun r => (r.1, r.2.2, r.2.1))) =
      (dropna l).map (fun r => (r.1, r.2.2, r.2.1)) := by
  induction l with
  | nil => rfl
  | cons r t ih =>
    obtain ⟨q, x, y⟩ := r
    cases x <;> cases y <;> simp [dropna, ih] <;>
      simpa [dropna] using ih

/-- C8: alignment is commutative in record content — `align(a, b)` and
`align(b, a)` (with no minimum-overlap requirement) succeed with record lists
that are permutations of each other up to swapping the two value columns —
and the number of aligned records is at most `min(|a|, |b|)`.  The quarterly
series invariant (unique quarter labels) is assumed. -/
theorem align_comm_and_size (a b : List (ℤ × Option ℚ))
    (ha : (a.map Prod.fst).Nodup) (hb : (b.map Prod.fst).Nodup) :
    ∃ ra rb, align a b 0 = .ok ra ∧ align b a 0 = .ok rb
      ∧ ra.Perm (rb.map (fun r => (r.1, r.2.2, r.2.1)))
      ∧ ra.length ≤ min a.length b.length := by
  refine ⟨dropna (innerJoin a b), dropna (innerJoin b a),
    by simp [align], by simp [align], ?_, ?_⟩
  · rw [← dropna_map_swap]
    exact List.Perm.filterMap _ (innerJoin_comm_perm a b ha hb)
  · have h1 : (dropna (innerJoin a b)).length ≤ (innerJoin a b).length :=
      List.length_filterMap_le _ _
    have h2 := innerJoin_length_le_left a b hb
    have h3 := innerJoin_length_le_right a b ha hb
    rw [le_min_iff]
    exact ⟨by omega, by omega⟩

theorem align_comm_and_size_witness :
    (([((0 : ℤ), some (1 : ℚ)), (1, some 2)].map Prod.fst).Nodup
      ∧ (([((1 : ℤ), some (3 : ℚ)), (2, some 4), (0, some 5)].map Prod.fst).Nodup))
    ∧ ∃ ra rb,
        align [((0 : ℤ), some (1 : ℚ)), (1, some 2)]
          [((1 : ℤ), some (3 : ℚ)), (2, some 4), (0, some 5)] 0 = .ok ra
        ∧ align [((1 : ℤ), some (3 : ℚ)), (2, some 4), (0, some 5)]
            [((0 : ℤ), some (1 : ℚ)), (1, some 2)] 0 = .ok rb
        ∧ ra.Perm (rb.map (fun r => (r.1, r.2.2, r.2.1)))
        ∧ ra.length ≤ min 2 3 :=
  ⟨⟨by decide, by decide⟩,
    align_comm_and_size [((0 : ℤ), some (1 : ℚ)), (1, some 2)]
      [((1 : ℤ), some (3 : ℚ)), (2, some 4), (0, some 5)]
      (by decide) (by decide)⟩

theorem qmin_eq_none (l : List ℤ) : qmin l = none ↔ l = [] := by
  cases l <;> simp [qmin]

theorem qmax_eq_none (l : List ℤ) : qmax l = none ↔ l = [] := by
  cases l <;> simp [qmax]

theorem qmin_le (l : List ℤ) (m : ℤ) (h : qmin l = some m) :
    ∀ x ∈ l, m ≤ x := by
  induction l generalizing m with
  | nil => simp [qmin] at h
  | cons q t ih =>
    intro x hx
    rw [qmin] at h
    cases hq : qmin t with
    | none =>
      rw [hq] at h
      simp only [Option.some.injEq] at h
      have ht : t = [] := (qmin_eq_none t).mp hq
      subst ht
      rcases List.mem_cons.mp hx with rfl | h2
      · omega
      · simp at h2
    | some mt =>
      rw [hq] at h
      simp only [Option.some.injEq] at h
      rcases List.mem_cons.mp hx with rfl | h2
      · have := min_le_left x mt
        omega
      · have h3 := ih mt hq x h2
        have := min_le_right q mt
        omega

theorem le_qmax (l : List ℤ) (m : ℤ) (h : qmax l = some m) :
    ∀ x ∈ l, x ≤ m := by
  induction l generalizing m with
  | nil => simp [qmax] at h
  | cons q t ih =>
    intro x hx
    rw [qmax] at h
    cases hq : qmax t with
    | none =>
      rw [hq] at h
      simp only [Option.some.injEq] at h
      have ht : t = [] := (qmax_eq_none t).mp hq
      subst ht
      rcases List.mem_cons.mp hx with rfl | h2
      · omega
      · simp at h2
    | some mt =>
      rw [hq] at h
      simp only [Option.some.injEq] at h
      rcases List.mem_cons.mp hx with rfl | h2
      · have := le_max_left x mt
        omega
      · have h3 := ih mt hq x h2
        have := le_max_right q mt
        omega

theorem resampleQ_eq (obs : List RawObs) (lo hi : ℤ)
    (hlo : qmin (obs.map (fun o => qIdx o.date)) = some lo)
    (hhi : qmax (obs.map (fun o => qIdx o.date)) = some hi) :
    resampleQ obs =
      (List.range (hi - lo + 1).toNat).map
        (fun (k : ℕ) => (lo + (k : ℤ), binVal obs (lo + (k : ℤ)))) := by
  unfold resampleQ
  rw [hlo, hhi]

theorem mem_resampleQ (obs : List RawObs) (q : ℤ) (v : Option ℚ) :
    (q, v) ∈ resampleQ obs ↔
      ∃ lo hi, qmin (obs.map (fun o => qIdx o.date)) = some lo
        ∧ qmax (obs.map (fun o => qIdx o.date)) = some hi
        ∧ lo ≤ q ∧ q ≤ hi ∧ v = binVal obs q := by
  cases hlo : qmin (obs.map (fun o => qIdx o.date)) with
  | none =>
    have hnil : obs = [] := by
      have := (qmin_eq_none _).mp hlo
      simpa using this
    subst hnil
    simp [resampleQ, qmin]
  | some lo =>
    cases hhi : qmax (obs.map (fun o => qIdx o.date)) with
    | none =>
      have hnil := (qmax_eq_none _).mp hhi
      rw [hnil] at hlo
      simp [qmin] at hlo
    | some hi =>
      rw [resampleQ_eq obs lo hi hlo hhi]
      constructor
      · intro hmem
        obtain ⟨k, hk, heq⟩ := List.mem_map.mp hmem
        have hk2 := List.mem_range.mp hk
        simp only [Prod.mk.injEq] at heq
        obtain ⟨hq, hv⟩ := heq
        refine ⟨lo, hi, rfl, rfl, by omega, by omega, ?_⟩
        rw [← hq]
        exact hv.symm
      · rintro ⟨lo', hi', h1, h2, h3, h4, h5⟩
        have e1 : lo = lo' := by simpa using h1
        have e2 : hi = hi' := by simpa using h2
        subst e1
        subst e2
        refine List.mem_map.mpr ⟨(q - lo).toNat, List.mem_range.mpr (by omega), ?_⟩
        have hq : lo + ((q - lo).toNat : ℤ) = q := by omega
        rw [hq, h5]

theorem binVal_ne_none (obs : List RawObs) (q : ℤ) :
    binVal obs q ≠ none ↔ ∃ o ∈ obs, qIdx o.date = q := by
  unfold binVal
  by_cases h : ((obs.filter (fun o => decide (qIdx o.date = q))).map (·.value)).isEmpty
  · simp only [h, if_pos, ne_eq, not_true_eq_false, false_iff]
    rw [List.isEmpty_iff, List.map_eq_nil_iff, List.filter_eq_nil_iff] at h
    rintro ⟨o, ho, hq⟩
    exact h o ho (by simpa using hq)
  · simp only [h, if_neg, ne_eq, reduceCtorEq, not_false_eq_true, true_iff]
    rw [List.isEmpty_iff, List.map_eq_nil_iff] at h
    obtain ⟨o, ho⟩ := List.exists_mem_of_ne_nil _ h
    have := List.mem_filter.mp ho
    exact ⟨o, this.1, by simpa using this.2⟩

/-- C4 (amended): the resampler emits the empty output on empty input, and
otherwise exactly one row per calendar quarter from the first to the last
observed quarter inclusive (rows for every quarter of that range and for no
other quarter); a row's value is non-null exactly when at least one
observation falls in its quarter (empty gap quarters get a null-valued row,
removed downstream by `dropna`), and every observed quarter receives a
non-null row. -/
theorem resample_quarterly_amended :
    resampleQ [] = []
    ∧ (∀ (obs : List RawObs) (q : ℤ) (v : Option ℚ), (q, v) ∈ resampleQ obs →
        (v ≠ none ↔ ∃ o ∈ obs, qIdx o.date = q))
    ∧ (∀ (obs : List RawObs) (o : RawObs), o ∈ obs →
        ∃ v, (qIdx o.date, v) ∈ resampleQ obs ∧ v ≠ none)
    ∧ (∀ (obs : List RawObs) (lo hi q : ℤ),
        qmin (obs.map (fun o => qIdx o.date)) = some lo →
        qmax (obs.map (fun o => qIdx o.date)) = some hi →
        lo ≤ q → q ≤ hi → (q, binVal obs q) ∈ resampleQ obs)
    ∧ (∀ (obs : List RawObs) (q : ℤ) (v : Option ℚ), (q, v) ∈ resampleQ obs →
        ∃ lo hi, qmin (obs.map (fun o => qIdx o.date)) = some lo
          ∧ qmax (obs.map (fun o => qIdx o.date)) = some hi
          ∧ lo ≤ q ∧ q ≤ hi ∧ v = binVal obs q) := by
  refine ⟨rfl, ?_, ?_, ?_, ?_⟩
  · intro obs q v hmem
    obtain ⟨lo, hi, _, _, _, _, hv⟩ := (mem_resampleQ obs q v).mp hmem
    rw [hv]
    exact binVal_ne_none obs q
  · intro obs o ho
    refine ⟨binVal obs (qIdx o.date), ?_, ?_⟩
    · cases hlo : qmin (obs.map (fun o => qIdx o.date)) with
      | none =>
        have : obs = [] := by simpa using (qmin_eq_none _).mp hlo
        subst this
        simp at ho
      | some lo =>
        cases hhi : qmax (obs.map (fun o => qIdx o.date)) with
        | none =>
          have : obs = [] := by simpa using (qmax_eq_none _).mp hhi
          subst this
          simp at ho
        | some hi =>
          refine (mem_resampleQ obs (qIdx o.date) _).mpr
            ⟨lo, hi, hlo, hhi, ?_, ?_, rfl⟩
          · exact qmin_le _ lo hlo _ (List.mem_map.mpr ⟨o, ho, rfl⟩)
          · exact le_qmax _ hi hhi _ (List.mem_map.mpr ⟨o, ho, rfl⟩)
    · exact (binVal_ne_none obs (qIdx o.date)).mpr ⟨o, ho, rfl⟩
  · intro obs lo hi q h1 h2 h3 h4
    exact (mem_resampleQ obs q _).mpr ⟨lo, hi, h1, h2, h3, h4, rfl⟩
  · intro obs q v h
    exact (mem_resampleQ obs q v).mp h

theorem resample_quarterly_amended_witness :
    (∃ v, (qIdx (RawObs.mk ⟨2020, 1, 15⟩ 10).date, v) ∈
        resampleQ [RawObs.mk ⟨2020, 1, 15⟩ 10] ∧ v ≠ none)
    ∧ ((none : Option ℚ) ≠ none ↔
        ∃ o ∈ [RawObs.mk ⟨2020, 1, 15⟩ 10, RawObs.mk ⟨2020, 8, 15⟩ 20],
          qIdx o.date = 8081)
    ∧ ((8081 : ℤ),
        binVal [RawObs.mk ⟨2020, 1, 15⟩ 10, RawObs.mk ⟨2020, 8, 15⟩ 20] 8081) ∈
        resampleQ [RawObs.mk ⟨2020, 1, 15⟩ 10, RawObs.mk ⟨2020, 8, 15⟩ 20] :=
  ⟨resample_quarterly_amended.2.2.1 [RawObs.mk ⟨2020, 1, 15⟩ 10]
      (RawObs.mk ⟨2020, 1, 15⟩ 10) (by decide),
    resample_quarterly_amended.2.1
      [RawObs.mk ⟨2020, 1, 15⟩ 10, RawObs.mk ⟨2020, 8, 15⟩ 20] 8081 none
      (by decide),
    resample_quarterly_amended.2.2.2.1
      [RawObs.mk ⟨2020, 1, 15⟩ 10, RawObs.mk ⟨2020, 8, 15⟩ 20] 8080 8082 8081
      (by decide) (by decide) (by decide) (by decide)⟩

/-- C4 (counterexample to the claim as stated): two observations, one in
quarter 8080 (2020 Q1) and one in quarter 8082 (2020 Q3), with no observation
in quarter 8081 — yet the resampled output contains a (null-valued) row for
the empty gap quarter 8081, so a quarterly point is not emitted only for
quarters holding an observation. -/
theorem resample_gap_quarter_row :
    ((resampleQ [RawObs.mk ⟨2020, 1, 15⟩ 10, RawObs.mk ⟨2020, 8, 15⟩ 20]).map
        Prod.fst = [8080, 8081, 8082])
    ∧ ((resampleQ [RawObs.mk ⟨2020, 1, 15⟩ 10,
        RawObs.mk ⟨2020, 8, 15⟩ 20]).getD 1 (0, some 0)).2 = none
    ∧ (∀ o ∈ [RawObs.mk ⟨2020, 1, 15⟩ 10, RawObs.mk ⟨2020, 8, 15⟩ 20],
        qIdx o.date ≠ 8081) :=
  ⟨by decide, by decide, by decide⟩
